import Mathlib

/-!
Verification of the `taf` repository (authentication-repository metadata
trail walk and YubiKey hardware-token handling) against its specification.

The Python sources are shallowly embedded:
  * `taf/updater/AuthenticationRepo.py` — the metadata trail walk
    (`target_commits_at_revisions`, `sorted_commits_per_repositories`).
    Python dicts are modelled as insertion-ordered association lists,
    `defaultdict` access as lookup-with-default, git/JSON reads as an
    abstract `RevisionStore`, and the `try/except` structure as an
    explicit `Fetch` outcome type with an `Except` result (only
    non-availability, non-JSON errors propagate, mirroring the code).
  * `taf/yubikey.py` — PIN acquisition (`get_and_validate_pin`), the
    process-wide key registry (`_yks_data_dict`), and the discovery loop
    (`yubikey_prompt`); interactive input is modelled as explicit input
    streams, hardware as an environment record, the unbounded retry loop
    by fuel, and the provisioning sequence (`setup`) as a state machine
    over a token state record.
-/

/-- Insertion-ordered association list lookup (Python `d.get(k)` / `k in d`). -/
def alGet {κ α : Type} [DecidableEq κ] : List (κ × α) → κ → Option α
  | [], _ => none
  | (k, v) :: rest, key => if k = key then some v else alGet rest key

/-- Lookup with a default value (Python `d.get(k, default)` or `defaultdict` read). -/
def alGetD {κ α : Type} [DecidableEq κ] (d : List (κ × α)) (key : κ) (dflt : α) : α :=
  (alGet d key).getD dflt

/-- Insertion-ordered association list update: `d[k] = v`.  An existing key keeps
its position; a fresh key is appended at the end (Python 3.7+ dict semantics). -/
def alSet {κ α : Type} [DecidableEq κ] : List (κ × α) → κ → α → List (κ × α)
  | [], key, v => [(key, v)]
  | (k, w) :: rest, key, v =>
    if k = key then (k, v) :: rest else (k, w) :: alSet rest key v

/-- `defaultdict(list)`-style append: `d[k].append(v)`, creating the key (at the
end of the dict) when absent. -/
def alListAppend : List (String × List String) → String → String → List (String × List String)
  | [], k, v => [(k, [v])]
  | (k', vs) :: rest, k, v =>
    if k' = k then (k', vs ++ [v]) :: rest else (k', vs) :: alListAppend rest k v

/-- Outcome of `get_json(revision, path)`: parsed content, `CalledProcessError`
(object not present at that revision), `json.decoder.JSONDecodeError`
(present but not valid JSON), or any other error (which the walk does not
catch and which therefore propagates). -/
inductive Fetch (α : Type) where
  | ok : α → Fetch α
  | unavailable : Fetch α
  | malformed : Fetch α
  | fatal : String → Fetch α
deriving DecidableEq, Repr

/-- `true` exactly on the uncaught-error outcome. -/
def Fetch.isFatal {α : Type} : Fetch α → Bool
  | .fatal _ => true
  | _ => false

/-- Abstract revision store (git object database + JSON parsing).
`targetsJson c` models `get_json(c, metadata_path/targets.json)['signed']['targets']`
as the list of declared target paths in document order;
`targetFile c p` models `get_json(c, targets_path/p).get('commit')`. -/
structure RevisionStore where
  targetsJson : String → Fetch (List String)
  targetFile : String → String → Fetch (Option String)

/-- The dict built by `target_commits_at_revisions`: commit → (target path → commit). -/
abbrev TargetsDict := List (String × List (String × String))

/-- One `targets[commit][target_path] = target_commit` assignment on the
`defaultdict(dict)` accumulator. -/
def assignTarget (targets : TargetsDict) (c p tc : String) : TargetsDict :=
  alSet targets c (alSet (alGetD targets c []) p tc)

/-- The inner loop of `target_commits_at_revisions`: for each declared target
path, fetch its descriptor; a missing `commit` field is skipped silently, an
unavailable or malformed descriptor is skipped with a diagnostic, and any
other error propagates. -/
def processTargetPaths (store : RevisionStore) (c : String) :
    List String → TargetsDict → List String → Except String (TargetsDict × List String)
  | [], targets, diags => .ok (targets, diags)
  | p :: rest, targets, diags =>
    match store.targetFile c p with
    | .fatal e => .error e
    | .ok (some tc) => processTargetPaths store c rest (assignTarget targets c p tc) diags
    | .ok none => processTargetPaths store c rest targets diags
    | .unavailable =>
        processTargetPaths store c rest targets
          (diags ++ [s!"target file {p} not available at revision {c}"])
    | .malformed =>
        processTargetPaths store c rest targets
          (diags ++ [s!"target file {p} is not a valid json at revision {c}"])

/-- The outer loop of `target_commits_at_revisions`: an unavailable or
malformed root `targets.json` skips the whole revision with a diagnostic;
any other error propagates. -/
def targetCommitsLoop (store : RevisionStore) :
    List String → TargetsDict → List String → Except String (TargetsDict × List String)
  | [], targets, diags => .ok (targets, diags)
  | c :: rest, targets, diags =>
    match store.targetsJson c with
    | .fatal e => .error e
    | .unavailable =>
        targetCommitsLoop store rest targets
          (diags ++ [s!"targets.json not available at revision {c}"])
    | .malformed =>
        targetCommitsLoop store rest targets
          (diags ++ [s!"targets.json is not a valid json at revision {c}"])
    | .ok paths =>
      match processTargetPaths store c paths targets diags with
      | .error e => .error e
      | .ok (targets', diags') => targetCommitsLoop store rest targets' diags'

/-- `AuthenticationRepo.target_commits_at_revisions`, returning the
commit → (target path → commit) dict together with the printed diagnostics. -/
def target_commits_at_revisions (store : RevisionStore) (commits : List String) :
    Except String (TargetsDict × List String) :=
  targetCommitsLoop store commits [] []

/-- The inner loop of `sorted_commits_per_repositories` for one revision:
`previous_commit` starts as `None` and a candidate is appended exactly when
`previous_commit is None or target_commit != previous_commit`; afterwards
`previous_commit` is set to the candidate unconditionally. -/
def revisionAppend (acc : List (String × List String)) (prev : Option String) :
    List (String × String) → List (String × List String)
  | [] => acc
  | (p, tc) :: rest =>
    revisionAppend (if prev = none ∨ some tc ≠ prev then alListAppend acc p tc else acc)
      (some tc) rest

/-- `AuthenticationRepo.sorted_commits_per_repositories`: walk the revisions in
the given order, resetting `previous_commit` to `None` at each revision, and
accumulate per-repository commit lists in a `defaultdict(list)`. -/
def sorted_commits_per_repositories (store : RevisionStore) (commits : List String) :
    Except String (List (String × List String) × List String) :=
  match target_commits_at_revisions store commits with
  | .error e => .error e
  | .ok (targets, diags) =>
      .ok (commits.foldl (fun acc c => revisionAppend acc none (alGetD targets c [])) [], diags)

/-- Per-revision entries as the specification describes them: nothing when the
root metadata is unavailable or malformed, otherwise exactly the declared
paths whose descriptor fetch succeeded with a `commit` field, in document
order.  Used to state that failures suppress exactly their own unit of work. -/
def revisionEntriesSpec (store : RevisionStore) (c : String) : List (String × String) :=
  match store.targetsJson c with
  | .ok paths =>
      paths.filterMap (fun p =>
        match store.targetFile c p with
        | .ok (some tc) => some (p, tc)
        | _ => none)
  | _ => []

/-- The entries of one revision that the de-duplication keeps, stated from the
spec's words: an entry is kept iff it is the first of the revision or its
commit differs from the commit of the immediately previously processed
target path (each entry is paired with its predecessor's commit via `zip`). -/
def specKeptEntries (prev : Option String) (es : List (String × String)) :
    List (String × String) :=
  (es.zip (prev :: es.map (fun e => some e.2))).filterMap
    (fun pr => if pr.2 = none ∨ some pr.1.2 ≠ pr.2 then some pr.1 else none)

/-! ### `taf/yubikey.py` — PIN acquisition (`is_valid_pin`, `get_and_validate_pin`) -/

/-- PIV PIN state of one token: the correct PIN and the number of attempts
remaining before lock-out. -/
structure PinHw where
  correctPin : String
  attemptsLeft : Nat
deriving DecidableEq, Repr

/-- `is_valid_pin`: verify the PIN against the token.  On success it returns
`(True, None)`; on `InvalidPinError` the hardware consumes one attempt and
the function returns `(False, ctrl.get_pin_attempts())`, the count remaining
after the failed attempt. -/
def is_valid_pin (hw : PinHw) (pin : String) : (Bool × Option Nat) × PinHw :=
  if pin = hw.correctPin then ((true, none), hw)
  else ((false, some (hw.attemptsLeft - 1)), { hw with attemptsLeft := hw.attemptsLeft - 1 })

/-- Python truthiness of the `retries` value: `not retries` holds for `None`
and for `0`. -/
def optNatFalsy : Option Nat → Bool
  | none => true
  | some n => n = 0

/-- Result of `get_and_validate_pin`: a valid PIN, the two `InvalidPINError`
raises (`"No retries left. YubiKey locked."` and `"PIN input cancelled"`),
or exhaustion of the modelled user-input stream. -/
inductive PinOutcome where
  | ok : String → PinOutcome
  | lockedOut : PinOutcome
  | cancelled : PinOutcome
  | inputExhausted : PinOutcome
deriving DecidableEq, Repr

/-- `get_and_validate_pin`: repeatedly prompt for a PIN (`pins` is the stream
of entered PINs) and verify it.  A failed verification with falsy remaining
retries raises the lock-out error before any retry-confirmation prompt; a
failed verification with retries left asks the user whether to try again
(`confirms` is the stream of answers), showing the remaining count.  The
second component collects the confirmation prompts that were displayed. -/
def get_and_validate_pin (hw : PinHw) :
    List String → List Bool → PinOutcome × List String
  | [], _ => (.inputExhausted, [])
  | pin :: restPins, confirms =>
    match is_valid_pin hw pin with
    | ((true, _), _) => (.ok pin, [])
    | ((false, retries), hw') =>
      if optNatFalsy retries then (.lockedOut, [])
      else
        let msg := s!"Incorrect PIN. Do you want to try again? {(retries.getD 0)} retries left."
        match confirms with
        | [] => (.inputExhausted, [msg])
        | c :: restConfirms =>
          if c then
            let r := get_and_validate_pin hw' restPins restConfirms
            (r.1, msg :: r.2)
          else (.cancelled, [msg])

/-! ### `taf/yubikey.py` — process-wide registry and the discovery loop -/

/-- The process-wide `_yks_data_dict`: per-serial cached PIN and public key,
plus the `"ids"` reverse index from logical key name to serial.  Serials and
public keys are abstracted as naturals. -/
structure Registry where
  pins : List (Nat × String)
  pubkeys : List (Nat × Nat)
  ids : List (String × Nat)
deriving DecidableEq, Repr

/-- A caller-owned `loaded_yubikeys` dict: serial → list of role names. -/
abbrev LoadedMap := List (Nat × List String)

/-- External world of the discovery loop: connected serials
(`get_all_serials`), public-key export (`get_piv_public_key_tuf`, which may
raise), role validation (`taf_repo.is_valid_metadata_yubikey`), a fresh PIN
chosen by the user (`get_pin_for`) and PIN entry validated against the token
(`get_and_validate_pin`, which may raise). -/
structure YkEnv where
  serials : List (Option Nat)
  exportKey : Nat → Except Unit Nat
  isValid : String → Option Nat → Bool
  freshPin : Nat → String
  validatePin : Nat → Except Unit String

/-- The keyword arguments of `yubikey_prompt` that steer one discovery pass. -/
structure PromptParams where
  keyName : String
  role : Option String
  hasTafRepo : Bool
  registeringNewKey : Bool
  creatingNewKey : Bool
  serialArg : Option Nat

/-- `check_yubikey_serial`: returns `False` (already loaded) exactly when the
loaded-roles dict is present, contains the serial, and the serial's role list
contains the requested role. -/
def check_yubikey_serial (loaded : Option LoadedMap) (serial : Nat)
    (role : Option String) : Bool :=
  match loaded with
  | none => true
  | some m =>
    match alGet m serial, role with
    | some roles, some r => !(roles.contains r)
    | _, _ => true

/-- `public_key = get_piv_public_key_tuf(serial=serial_num) if not
creating_new_key else None`; a raised error is propagated to the
per-candidate `except` handler. -/
def exportStep (env : YkEnv) (p : PromptParams) (serial : Nat) :
    Except Unit (Option Nat) :=
  if p.creatingNewKey then .ok none
  else
    match env.exportKey serial with
    | .ok pk => .ok (some pk)
    | .error e => .error e

/-- The role-validation guard of `yubikey_prompt`:
`not registering_new_key and role and taf_repo and not
taf_repo.is_valid_metadata_yubikey(role, public_key)`. -/
def roleInvalid (env : YkEnv) (p : PromptParams) (publicKey : Option Nat) : Bool :=
  !p.registeringNewKey && p.role.isSome && p.hasTafRepo &&
    !(env.isValid (p.role.getD "") publicKey)

/-- `handle_yubikey_pin`: only when the serial has no cached PIN, obtain one
(freshly chosen when creating a new key, otherwise entered and validated,
which may raise) and store it with `add_key_pin`. -/
def handle_yubikey_pin (env : YkEnv) (reg : Registry) (serial : Nat)
    (creatingNewKey : Bool) : Except Unit Registry :=
  match alGet reg.pins serial with
  | some _ => .ok reg
  | none =>
    match (if creatingNewKey then .ok (env.freshPin serial) else env.validatePin serial) with
    | .error e => .error e
    | .ok pin => .ok { reg with pins := alSet reg.pins serial pin }

/-- `loaded_yubikeys.setdefault(serial_num, []).append(role)`. -/
def appendRole (m : LoadedMap) (serial : Nat) (r : String) : LoadedMap :=
  alSet m serial (alGetD m serial [] ++ [r])

/-- Result of one discovery pass (`_read_and_check_yubikey`). -/
inductive PassResult where
  | found : Option Nat → Nat → PassResult
  | notFound : PassResult
deriving DecidableEq, Repr

/-- The body of `_read_and_check_yubikey` for one candidate serial: `none`
models a `continue` (an already-loaded serial, an export failure, a
role-validation failure or a raised PIN error each skip to the next
candidate); a successful candidate caches its public key and key-name
mapping when absent, appends the role to the caller's loaded map (when the
caller passed one), and produces the return value. -/
def tryCandidate (env : YkEnv) (p : PromptParams) (serial : Nat) (reg : Registry)
    (loaded : Option LoadedMap) :
    Option (PassResult × Registry × Option LoadedMap) :=
  if check_yubikey_serial loaded serial p.role then
    match exportStep env p serial with
    | .error _ => none
    | .ok publicKey =>
      if roleInvalid env p publicKey then none
      else
        match handle_yubikey_pin env reg serial p.creatingNewKey with
        | .error _ => none
        | .ok reg1 =>
          let reg2 :=
            match publicKey, alGet reg1.pubkeys serial with
            | some pk, none =>
                { reg1 with pubkeys := alSet reg1.pubkeys serial pk,
                            ids := alSet reg1.ids p.keyName serial }
            | _, _ => reg1
          let loaded' :=
            match p.role, loaded with
            | some r, some m => some (appendRole m serial r)
            | _, _ => loaded
          some (.found publicKey serial, reg2, loaded')
  else none

/-- The candidate loop of `_read_and_check_yubikey`: a `None` serial returns
immediately; a skipped candidate (`tryCandidate` = `none`) moves on to the
remaining candidates; a successful candidate returns. -/
def readCandidates (env : YkEnv) (p : PromptParams) :
    List (Option Nat) → Registry → Option LoadedMap →
    PassResult × Registry × Option LoadedMap
  | [], reg, loaded => (.notFound, reg, loaded)
  | none :: _, reg, loaded => (.notFound, reg, loaded)
  | some serial :: rest, reg, loaded =>
    match tryCandidate env p serial reg loaded with
    | none => readCandidates env p rest reg loaded
    | some result => result

/-- `serial_nums_to_check = [serial] if serial else get_all_serials()`. -/
def candidateSerials (env : YkEnv) (p : PromptParams) : List (Option Nat) :=
  match p.serialArg with
  | some s => [some s]
  | none => env.serials

/-- The outer `while True` loop of `yubikey_prompt`, modelled with fuel
(`none` = the loop is still running after that many iterations).  A
successful pass returns `(key, serial)`; an unsuccessful pass returns
`(None, None)` when retrying is disabled and otherwise increments the retry
counter and starts another pass. -/
def yubikey_prompt (env : YkEnv) (p : PromptParams) (retryOnFailure : Bool) :
    Nat → Nat → Registry → Option LoadedMap →
    Option (Option (Option Nat × Nat) × Registry × Option LoadedMap)
  | 0, _, _, _ => none
  | fuel + 1, retryCounter, reg, loaded =>
    match readCandidates env p (candidateSerials env p) reg loaded with
    | (.found pk serial, reg', loaded') => some (some (pk, serial), reg', loaded')
    | (.notFound, reg', loaded') =>
      if retryOnFailure then
        yubikey_prompt env p retryOnFailure fuel (retryCounter + 1) reg' loaded'
      else some (none, reg', loaded')

/-! ### `taf/yubikey.py` — token provisioning (`setup`) -/

/-- `DEFAULT_PIN` -/
def DEFAULT_PIN : String := "123456"

/-- `DEFAULT_PUK` -/
def DEFAULT_PUK : String := "12345678"

/-- `yubikit.piv.DEFAULT_MANAGEMENT_KEY`, abstracted. -/
def DEFAULT_MANAGEMENT_KEY : Nat := 0

/-- PIV state of one token: PIN, PUK, management key, per-slot certificates
and private keys, and the configured attempt limits. -/
structure TokenState where
  pin : String
  puk : String
  mgmKey : Nat
  slotCerts : List (Nat × Nat)
  slotKeys : List (Nat × Nat)
  pinAttempts : Nat
  pukAttempts : Nat
deriving DecidableEq, Repr

/-- The PIV slot priority list of `setup`: SIGNATURE (0x9c), AUTHENTICATION
(0x9a), KEY_MANAGEMENT (0x9d), CARD_AUTH (0x9e). -/
def SLOT_PRIORITY : List Nat := [0x9c, 0x9a, 0x9d, 0x9e]

/-- `ctrl.reset()`: factory reset — key material destroyed, PIN/PUK and the
management key back to their factory defaults. -/
def tokenReset (_t : TokenState) : TokenState :=
  { pin := DEFAULT_PIN, puk := DEFAULT_PUK, mgmKey := DEFAULT_MANAGEMENT_KEY,
    slotCerts := [], slotKeys := [], pinAttempts := 3, pukAttempts := 3 }

/-- `ctrl.authenticate(mgm_key)`: fails unless the supplied management key is
the token's current one. -/
def tokenAuthenticate (t : TokenState) (k : Nat) : Except String Unit :=
  if k = t.mgmKey then .ok () else .error "management key authentication failed"

/-- `ctrl.verify_pin(pin)`. -/
def tokenVerifyPin (t : TokenState) (pin : String) : Except String Unit :=
  if pin = t.pin then .ok () else .error "invalid PIN"

/-- `ctrl.change_pin(old, new)`. -/
def tokenChangePin (t : TokenState) (old new : String) : Except String TokenState :=
  if old = t.pin then .ok { t with pin := new } else .error "invalid PIN"

/-- `ctrl.change_puk(old, new)`. -/
def tokenChangePuk (t : TokenState) (old new : String) : Except String TokenState :=
  if old = t.puk then .ok { t with puk := new } else .error "invalid PUK"

/-- The slot-selection loop of `setup`: the first slot of the priority list
whose `get_certificate` raises (no certificate present). -/
def firstAvailableSlot (t : TokenState) : Option Nat :=
  SLOT_PRIORITY.find? (fun s => (alGet t.slotCerts s).isNone)

/-- `taf.yubikey.setup`, as a state machine over `TokenState`: factory reset,
authenticate with the default management key and install the supplied one,
pick the first free slot, inject the private key, authenticate and verify the
default PIN, import the self-signed certificate, set the attempt limits, then
change the PIN to `pin` and the PUK to the same `pin` value.  Returns the
final token state and the public key of the injected key pair. -/
def setup (t0 : TokenState) (pin : String) (pinRetries : Nat) (mgmKey : Nat)
    (privateKey : Nat) (cert : Nat) : Except String (TokenState × Nat) :=
  let t1 := tokenReset t0
  match tokenAuthenticate t1 DEFAULT_MANAGEMENT_KEY with
  | .error e => .error e
  | .ok _ =>
    let t2 := { t1 with mgmKey := mgmKey }
    match firstAvailableSlot t2 with
    | none => .error "No available slots found on the YubiKey."
    | some slot =>
      let t3 := { t2 with slotKeys := alSet t2.slotKeys slot privateKey }
      match tokenAuthenticate t3 mgmKey with
      | .error e => .error e
      | .ok _ =>
        match tokenVerifyPin t3 DEFAULT_PIN with
        | .error e => .error e
        | .ok _ =>
          let t4 := { t3 with slotCerts := alSet t3.slotCerts slot cert }
          let t5 := { t4 with pinAttempts := pinRetries, pukAttempts := pinRetries }
          match tokenChangePin t5 DEFAULT_PIN pin with
          | .error e => .error e
          | .ok t6 =>
            match tokenChangePuk t6 DEFAULT_PUK pin with
            | .error e => .error e
            | .ok t7 => .ok (t7, privateKey)

/-! ### `taf/yubikey.py` — the `mgm_key` default argument of `setup` -/

/-- `ykman.piv.generate_random_management_key`: one draw from the process
entropy source. -/
def generate_random_management_key (entropy : Nat) : Nat := entropy

/-- Module-level state created when `taf.yubikey` is imported.  Python
evaluates the default-argument expression
`mgm_key=generate_random_management_key(MANAGEMENT_KEY_TYPE.TDES)` exactly
once, at function-definition (import) time, so the module carries one fixed
default management key. -/
structure YkModule where
  setupDefaultMgmKey : Nat

/-- Importing `taf.yubikey`: the `setup` default `mgm_key` is generated from
the entropy available at import time. -/
def importYubikeyModule (entropy : Nat → Nat) : YkModule :=
  { setupDefaultMgmKey := generate_random_management_key (entropy 0) }

/-- The management key a `setup` call installs: the explicit `mgm_key`
argument when supplied, otherwise the module's import-time default. -/
def setupInstalledMgmKey (m : YkModule) (mgmArg : Option Nat) : Nat :=
  match mgmArg with
  | some k => k
  | none => m.setupDefaultMgmKey

/-- Modelled from the spec: "install a newly generated management secret" —
each `setup` call without an explicit `mgm_key` draws a fresh value from the
entropy source (`callIdx` numbers the calls within the process).  This is the
behavior the specification describes, for comparison with
`setupInstalledMgmKey`. -/
def setupInstalledMgmKeySpec (entropy : Nat → Nat) (callIdx : Nat)
    (mgmArg : Option Nat) : Nat :=
  match mgmArg with
  | some k => k
  | none => generate_random_management_key (entropy callIdx)

/-! ### Concrete stores used as witnesses and counterexample inputs -/

/-- One revision `r1` declaring paths `A` then `B`, both pinned to `"c1"`. -/
def storeTwoPathsSameCommit : RevisionStore :=
  { targetsJson := fun c => if c = "r1" then .ok ["A", "B"] else .unavailable,
    targetFile := fun c p =>
      if c = "r1" ∧ (p = "A" ∨ p = "B") then .ok (some "c1") else .unavailable }

/-- Three revisions `r1 r2 r3` with the single path `A` pinned to
`"c1"`, `"c1"`, `"c2"` respectively. -/
def storeSinglePathThreeRevs : RevisionStore :=
  { targetsJson := fun c =>
      if c = "r1" ∨ c = "r2" ∨ c = "r3" then .ok ["A"] else .unavailable,
    targetFile := fun c p =>
      if p = "A" then
        if c = "r1" ∨ c = "r2" then .ok (some "c1")
        else if c = "r3" then .ok (some "c2") else .unavailable
      else .unavailable }

/-! ### De-duplication characterization (claim C1) -/

/-- The inner loop of `sorted_commits_per_repositories` appends exactly the
entries kept by the previous-candidate rule, in order. -/
theorem revisionAppend_eq_foldl (es : List (String × String)) :
    ∀ (acc : List (String × List String)) (prev : Option String),
      revisionAppend acc prev es =
        (specKeptEntries prev es).foldl (fun a pr => alListAppend a pr.1 pr.2) acc := by
  induction es with
  | nil => intro acc prev; rfl
  | cons e rest ih =>
    intro acc prev
    obtain ⟨p, tc⟩ := e
    have hspec : specKeptEntries prev ((p, tc) :: rest) =
        (if prev = none ∨ some tc ≠ prev then [(p, tc)] else []) ++
          specKeptEntries (some tc) rest := by
      simp only [specKeptEntries, List.map_cons, List.zip_cons_cons, List.filterMap_cons]
      split <;> simp_all
    rw [revisionAppend, hspec, List.foldl_append]
    by_cases hc : prev = none ∨ some tc ≠ prev
    · rw [if_pos hc, if_pos hc, ih]
      rfl
    · rw [if_neg hc, if_neg hc, ih]
      rfl

/-- C1: in `sorted_commits_per_repositories` the de-duplication variable
`previous` is scoped per revision across all target paths: a path's candidate
is appended iff it is the first candidate of the revision or differs from the
candidate of the immediately previously processed target path
(`specKeptEntries` pairs each entry with its predecessor's candidate); in
particular, for one revision declaring `A` then `B` both with commit `"c1"`,
only `A`'s timeline receives `"c1"` and `B` is absent from the result. -/
theorem taf_C1_dedup_scoped_per_revision :
    (∀ (acc : List (String × List String)) (prev : Option String)
        (es : List (String × String)),
        revisionAppend acc prev es =
          (specKeptEntries prev es).foldl (fun a pr => alListAppend a pr.1 pr.2) acc)
    ∧ sorted_commits_per_repositories storeTwoPathsSameCommit ["r1"] =
        .ok ([("A", ["c1"])], [])
    ∧ alGet [("A", ["c1"])] "B" = none :=
  ⟨fun acc prev es => revisionAppend_eq_foldl es acc prev, rfl, rfl⟩

/-- C6 (code bug): with the single path `A` mapped to `"c1"`, `"c1"`, `"c2"`
over revisions `r1 r2 r3`, the code yields the timeline
`["c1", "c1", "c2"]` — `previous_commit` is reset at every revision, so the
consecutive repeat across revisions is NOT removed, and the timeline differs
from the claimed `["c1", "c2"]`. -/
theorem taf_C6_cross_revision_dedup_eval :
    sorted_commits_per_repositories storeSinglePathThreeRevs ["r1", "r2", "r3"] =
      .ok ([("A", ["c1", "c1", "c2"])], [])
    ∧ alGetD [("A", ["c1", "c1", "c2"])] "A" [] ≠ ["c1", "c2"] :=
  ⟨rfl, by decide⟩

/-- C10: a successful `setup` leaves the token's PUK equal to its new PIN —
the final step is `ctrl.change_puk(DEFAULT_PUK, pin)` with the same `pin`
value just installed by `ctrl.change_pin`, so the two secrets coincide. -/
theorem taf_C10_puk_equals_pin (t0 : TokenState) (pin : String)
    (pinRetries mgmKey privKey cert : Nat) :
    ∃ t, setup t0 pin pinRetries mgmKey privKey cert = .ok (t, privKey)
      ∧ t.puk = pin ∧ t.pin = pin :=
  ⟨{ pin := pin, puk := pin, mgmKey := mgmKey, slotCerts := [(0x9c, cert)],
     slotKeys := [(0x9c, privKey)], pinAttempts := pinRetries,
     pukAttempts := pinRetries },
   by simp [setup, tokenReset, tokenAuthenticate, tokenVerifyPin, tokenChangePin,
            tokenChangePuk, firstAvailableSlot, SLOT_PRIORITY, alGet, alSet,
            DEFAULT_MANAGEMENT_KEY, DEFAULT_PIN, DEFAULT_PUK],
   rfl, rfl⟩

/-- C3 (code bug): the `mgm_key` default argument is evaluated once, at
module-import time, so every `setup` call that omits `mgm_key` installs the
same process-wide key — whereas the spec's per-call fresh generation
(`setupInstalledMgmKeySpec`) yields distinct keys for distinct calls. -/
theorem taf_C3_default_mgm_key_shared :
    (∀ entropy : Nat → Nat,
        setupInstalledMgmKey (importYubikeyModule entropy) none =
          generate_random_management_key (entropy 0))
    ∧ setupInstalledMgmKeySpec (fun n => n) 0 none ≠
        setupInstalledMgmKeySpec (fun n => n) 1 none :=
  ⟨fun _ => rfl, by decide⟩

/-! ### PIN acquisition (claim C4) -/

/-- C4: when a PIN verification fails, `get_and_validate_pin` raises the fatal
lock-out `InvalidPINError` without issuing a retry-confirmation prompt
whenever the hardware reports 0 attempts remaining; with attempts remaining
it asks whether to retry, showing the count: declining raises the distinct
cancellation error, accepting re-prompts for another PIN. -/
theorem taf_C4_lockout_without_reprompt (hw : PinHw) (pin : String)
    (pins : List String) (confirms : List Bool) (hwrong : pin ≠ hw.correctPin) :
    (hw.attemptsLeft ≤ 1 →
      get_and_validate_pin hw (pin :: pins) confirms = (.lockedOut, []))
    ∧ (∀ n, hw.attemptsLeft = n + 2 →
        (∀ cs, confirms = false :: cs →
          get_and_validate_pin hw (pin :: pins) confirms =
            (.cancelled,
             [s!"Incorrect PIN. Do you want to try again? {n + 1} retries left."]))
        ∧ (∀ cs, confirms = true :: cs →
          get_and_validate_pin hw (pin :: pins) confirms =
            ((get_and_validate_pin { hw with attemptsLeft := n + 1 } pins cs).1,
             s!"Incorrect PIN. Do you want to try again? {n + 1} retries left." ::
               (get_and_validate_pin { hw with attemptsLeft := n + 1 } pins cs).2))) := by
  have hv : is_valid_pin hw pin =
      ((false, some (hw.attemptsLeft - 1)), { hw with attemptsLeft := hw.attemptsLeft - 1 }) := by
    simp [is_valid_pin, hwrong]
  constructor
  · intro hle
    have h0 : hw.attemptsLeft - 1 = 0 := by omega
    simp [get_and_validate_pin, hv, h0, optNatFalsy]
  · intro n hn
    have h1 : hw.attemptsLeft - 1 = n + 1 := by omega
    constructor
    · intro cs hcs
      subst hcs
      simp [get_and_validate_pin, hv, h1, optNatFalsy]
    · intro cs hcs
      subst hcs
      simp [get_and_validate_pin, hv, h1, optNatFalsy]

/-- Witness for C4 at a concrete token (correct PIN `"1234"`, one attempt
left) and the wrong entry `"0000"`. -/
theorem taf_C4_lockout_without_reprompt_witness :
    get_and_validate_pin ⟨"1234", 1⟩ ["0000"] [] = (.lockedOut, []) :=
  (taf_C4_lockout_without_reprompt ⟨"1234", 1⟩ "0000" [] [] (by decide)).1 (by decide)

/-! ### Association-list lemmas -/

theorem alGet_alSet_self {κ α : Type} [DecidableEq κ] (d : List (κ × α)) (k : κ) (v : α) :
    alGet (alSet d k v) k = some v := by
  induction d with
  | nil => simp [alGet, alSet]
  | cons e rest ih =>
    obtain ⟨k', w⟩ := e
    by_cases h : k' = k
    · simp [alGet, alSet, h]
    · simp [alGet, alSet, h, ih]

theorem alGet_alSet_ne {κ α : Type} [DecidableEq κ] (d : List (κ × α)) (k k' : κ) (v : α)
    (h : k' ≠ k) : alGet (alSet d k v) k' = alGet d k' := by
  have hne : ¬ k = k' := fun he => h he.symm
  induction d with
  | nil =>
    simp only [alSet, alGet]
    rw [if_neg hne]
  | cons e rest ih =>
    obtain ⟨k₀, w⟩ := e
    by_cases h0 : k₀ = k
    · subst h0
      simp only [alSet, if_pos rfl, alGet, if_neg hne]
    · simp only [alSet, if_neg h0, alGet]
      split
      · rfl
      · exact ih

/-! ### Discovery loop: role-validation skip (claim C7) -/

/-- C7: a candidate token whose exported public key fails role validation is
skipped without any effect — processing the candidate list starting at that
serial is identical to processing the remaining candidates, so the caller's
loaded-roles map (and the registry) are untouched by that serial. -/
theorem taf_C7_invalid_role_candidate_skipped (env : YkEnv) (p : PromptParams)
    (rest : List (Option Nat)) (reg : Registry) (loaded : Option LoadedMap)
    (serial : Nat) (pk : Nat) (r : String)
    (hcheck : check_yubikey_serial loaded serial p.role = true)
    (hcreate : p.creatingNewKey = false)
    (hexport : env.exportKey serial = .ok pk)
    (hreg : p.registeringNewKey = false)
    (hrole : p.role = some r)
    (hrepo : p.hasTafRepo = true)
    (hvalid : env.isValid r (some pk) = false) :
    readCandidates env p (some serial :: rest) reg loaded =
      readCandidates env p rest reg loaded := by
  have hexp : exportStep env p serial = .ok (some pk) := by
    simp [exportStep, hcreate, hexport]
  have hinv : roleInvalid env p (some pk) = true := by
    simp [roleInvalid, hreg, hrole, hrepo, hvalid]
  have hskip : tryCandidate env p serial reg loaded = none := by
    simp [tryCandidate, hcheck, hexp, hinv]
  simp [readCandidates, hskip]

/-- A concrete discovery environment in which serial 5 exports key 9, which
is not a valid key for role `"root"`. -/
def envInvalidRole : YkEnv :=
  { serials := [some 5],
    exportKey := fun _ => .ok 9,
    isValid := fun _ _ => false,
    freshPin := fun _ => "0000",
    validatePin := fun _ => .ok "0000" }

/-- The parameters of a `yubikey_prompt` call requesting role `"root"`. -/
def paramsRootRole : PromptParams :=
  { keyName := "root1", role := some "root", hasTafRepo := true,
    registeringNewKey := false, creatingNewKey := false, serialArg := none }

/-- Witness for C7: with serial 5 failing validation for `"root"`, the pass
over `[some 5]` equals the pass over `[]` — nothing found, loaded map and
registry unchanged. -/
theorem taf_C7_invalid_role_candidate_skipped_witness :
    readCandidates envInvalidRole paramsRootRole [some 5] ⟨[], [], []⟩ (some []) =
      readCandidates envInvalidRole paramsRootRole [] ⟨[], [], []⟩ (some []) :=
  taf_C7_invalid_role_candidate_skipped envInvalidRole paramsRootRole [] ⟨[], [], []⟩
    (some []) 5 9 "root" rfl rfl rfl rfl rfl rfl rfl

/-! ### Discovery loop: retry policy (claim C8) -/

/-- C8: with retrying disabled, an unsuccessful discovery pass makes
`yubikey_prompt` return the explicit not-found result `(None, None)` after
exactly that one pass (the result does not depend on the remaining fuel);
with retrying enabled, an unsuccessful pass increments the retry counter and
loops back, and with no candidates ever available the loop never returns for
any amount of fuel. -/
theorem taf_C8_retry_policy (env : YkEnv) (p : PromptParams) (fuel rc : Nat)
    (reg : Registry) (loaded : Option LoadedMap) :
    (∀ reg' loaded',
      readCandidates env p (candidateSerials env p) reg loaded = (.notFound, reg', loaded') →
      yubikey_prompt env p false (fuel + 1) rc reg loaded = some (none, reg', loaded')
      ∧ yubikey_prompt env p true (fuel + 1) rc reg loaded =
          yubikey_prompt env p true fuel (rc + 1) reg' loaded')
    ∧ (env.serials = [] → p.serialArg = none →
        ∀ f rc2 (reg2 : Registry) (loaded2 : Option LoadedMap),
          yubikey_prompt env p true f rc2 reg2 loaded2 = none) := by
  constructor
  · intro reg' loaded' hpass
    constructor
    · simp [yubikey_prompt, hpass]
    · simp [yubikey_prompt, hpass]
  · intro hser harg f
    induction f with
    | zero => intro rc2 reg2 loaded2; rfl
    | succ f ih =>
      intro rc2 reg2 loaded2
      have hcand : candidateSerials env p = [] := by
        simp [candidateSerials, harg, hser]
      simp [yubikey_prompt, hcand, readCandidates, ih]

/-- A discovery environment with no connected YubiKeys. -/
def envNoKeys : YkEnv :=
  { serials := [],
    exportKey := fun _ => .error (),
    isValid := fun _ _ => false,
    freshPin := fun _ => "0000",
    validatePin := fun _ => .error () }

/-- Witness for C8: with no connected keys, a non-retrying prompt returns the
explicit not-found result after one pass, and a retrying prompt is still
running after three fuel units. -/
theorem taf_C8_retry_policy_witness :
    yubikey_prompt envNoKeys paramsRootRole false 1 0 ⟨[], [], []⟩ none =
      some (none, ⟨[], [], []⟩, none)
    ∧ yubikey_prompt envNoKeys paramsRootRole true 3 0 ⟨[], [], []⟩ none = none :=
  ⟨((taf_C8_retry_policy envNoKeys paramsRootRole 0 0 ⟨[], [], []⟩ none).1
      ⟨[], [], []⟩ none rfl).1,
   (taf_C8_retry_policy envNoKeys paramsRootRole 0 0 ⟨[], [], []⟩ none).2
      rfl rfl 3 0 ⟨[], [], []⟩ none⟩

/-! ### Discovery loop: cached-PIN stability (claim C9) -/

/-- `handle_yubikey_pin` never disturbs an existing cache entry: any serial
whose PIN is cached before the call still has the same PIN after it. -/
theorem handle_yubikey_pin_preserves (env : YkEnv) (reg : Registry) (serial : Nat)
    (c : Bool) (reg' : Registry) (h : handle_yubikey_pin env reg serial c = .ok reg')
    (s : Nat) (pin : String) (hs : alGet reg.pins s = some pin) :
    alGet reg'.pins s = some pin := by
  unfold handle_yubikey_pin at h
  cases hc : alGet reg.pins serial with
  | some q =>
    rw [hc] at h
    cases h
    exact hs
  | none =>
    rw [hc] at h
    cases hp : (if c then Except.ok (env.freshPin serial) else env.validatePin serial) with
    | error e => rw [hp] at h; cases h
    | ok pin' =>
      rw [hp] at h
      cases h
      have hne : s ≠ serial := by
        intro he
        rw [he, hc] at hs
        cases hs
      rw [alGet_alSet_ne reg.pins serial s pin' hne]
      exact hs

/-- A successful `tryCandidate` never disturbs an existing PIN cache entry. -/
theorem tryCandidate_preserves_pins (env : YkEnv) (p : PromptParams) (serial : Nat)
    (reg : Registry) (loaded : Option LoadedMap)
    (res : PassResult) (reg' : Registry) (loaded' : Option LoadedMap)
    (h : tryCandidate env p serial reg loaded = some (res, reg', loaded'))
    (s : Nat) (pin : String) (hs : alGet reg.pins s = some pin) :
    alGet reg'.pins s = some pin := by
  unfold tryCandidate at h
  split at h
  · split at h
    · cases h
    · split at h
      · cases h
      · split at h
        · cases h
        · rename_i publicKey _ _ reg1 hpin
          have h1 : alGet reg1.pins s = some pin :=
            handle_yubikey_pin_preserves env reg serial p.creatingNewKey reg1 hpin
              s pin hs
          simp only [Option.some.injEq, Prod.mk.injEq] at h
          obtain ⟨-, hreg2, -⟩ := h
          rw [← hreg2]
          split
          · simp only
            exact h1
          · exact h1
  · cases h

/-- One discovery pass never disturbs an existing PIN cache entry. -/
theorem readCandidates_preserves_pins (env : YkEnv) (p : PromptParams) :
    ∀ (cands : List (Option Nat)) (reg : Registry) (loaded : Option LoadedMap)
      (res : PassResult) (reg' : Registry) (loaded' : Option LoadedMap),
      readCandidates env p cands reg loaded = (res, reg', loaded') →
      ∀ s pin, alGet reg.pins s = some pin → alGet reg'.pins s = some pin := by
  intro cands
  induction cands with
  | nil =>
    intro reg loaded res reg' loaded' h s pin hs
    cases h
    exact hs
  | cons cand rest ih =>
    intro reg loaded res reg' loaded' h s pin hs
    cases cand with
    | none =>
      cases h
      exact hs
    | some serial =>
      rw [readCandidates] at h
      cases htc : tryCandidate env p serial reg loaded with
      | none =>
        rw [htc] at h
        exact ih reg loaded res reg' loaded' h s pin hs
      | some result =>
        obtain ⟨res0, reg0, loaded0⟩ := result
        rw [htc] at h
        cases h
        exact tryCandidate_preserves_pins env p serial reg loaded _ _ _ htc s pin hs

/-- C9: a cached PIN is never silently replaced.  First conjunct: the
discovery-loop PIN handler (`handle_yubikey_pin`) stores a PIN only for a
serial whose cache entry is absent — with a cached PIN it returns the
registry unchanged.  Second conjunct: across any complete `yubikey_prompt`
run, every serial's previously cached PIN is still cached unchanged. -/
theorem taf_C9_cached_pin_stable :
    (∀ (env : YkEnv) (reg : Registry) (serial : Nat) (c : Bool) (pin : String),
        alGet reg.pins serial = some pin →
        handle_yubikey_pin env reg serial c = .ok reg)
    ∧ (∀ (env : YkEnv) (p : PromptParams) (r : Bool) (fuel rc : Nat)
        (reg : Registry) (loaded : Option LoadedMap)
        (res : Option (Option Nat × Nat)) (reg' : Registry) (loaded' : Option LoadedMap),
        yubikey_prompt env p r fuel rc reg loaded = some (res, reg', loaded') →
        ∀ s pin, alGet reg.pins s = some pin → alGet reg'.pins s = some pin) := by
  constructor
  · intro env reg serial c pin hs
    unfold handle_yubikey_pin
    rw [hs]
  · intro env p r fuel
    induction fuel with
    | zero =>
      intro rc reg loaded res reg' loaded' h
      cases h
    | succ fuel ih =>
      intro rc reg loaded res reg' loaded' h s pin hs
      rw [yubikey_prompt] at h
      cases hpass : readCandidates env p (candidateSerials env p) reg loaded with
      | mk pres rest2 =>
        obtain ⟨reg2, loaded2⟩ := rest2
        rw [hpass] at h
        have h2 : alGet reg2.pins s = some pin :=
          readCandidates_preserves_pins env p (candidateSerials env p) reg loaded
            pres reg2 loaded2 hpass s pin hs
        cases pres with
        | found pk serial =>
          simp only at h
          cases h
          exact h2
        | notFound =>
          simp only at h
          by_cases hr : r
          · rw [if_pos hr] at h
            exact ih (rc + 1) reg2 loaded2 res reg' loaded' h s pin h2
          · rw [if_neg hr] at h
            cases h
            exact h2

/-- A concrete environment in which serial 7 is connected, validates for any
role, and enters PIN `"2222"`. -/
def envSerialSeven : YkEnv :=
  { serials := [some 7],
    exportKey := fun _ => .ok 9,
    isValid := fun _ _ => true,
    freshPin := fun _ => "1111",
    validatePin := fun _ => .ok "2222" }

/-- Witness for C9: with serial 5's PIN `"9999"` already cached, the handler
leaves the registry unchanged, and a full prompt run that loads serial 7
still has `"9999"` cached for serial 5 afterwards. -/
theorem taf_C9_cached_pin_stable_witness :
    handle_yubikey_pin envSerialSeven ⟨[(5, "9999")], [], []⟩ 5 false =
      .ok ⟨[(5, "9999")], [], []⟩
    ∧ alGet (⟨[(5, "9999"), (7, "2222")], [(7, 9)], [("root1", 7)]⟩ : Registry).pins 5 =
        some "9999" :=
  ⟨(taf_C9_cached_pin_stable).1 envSerialSeven ⟨[(5, "9999")], [], []⟩ 5 false "9999" rfl,
   (taf_C9_cached_pin_stable).2 envSerialSeven paramsRootRole true 1 0
     ⟨[(5, "9999")], [], []⟩ (some []) (some (some 9, 7))
     ⟨[(5, "9999"), (7, "2222")], [(7, 9)], [("root1", 7)]⟩
     (some [(7, ["root"])]) rfl 5 "9999" rfl⟩

/-! ### Trail walk: failure isolation (claim C2) -/

/-- `keptPairs store c paths`: the (path, commit) pairs the inner loop stores
for revision `c`, i.e. the declared paths whose descriptor fetch succeeded
with a `commit` field, in document order. -/
def keptPairs (store : RevisionStore) (c : String) (paths : List String) :
    List (String × String) :=
  paths.filterMap (fun p =>
    match store.targetFile c p with
    | .ok (some tc) => some (p, tc)
    | _ => none)

/-- The pure effect of the inner loop on the accumulated dict, as a fold of
the per-path assignments. -/
def foldAssign (store : RevisionStore) (c : String) (targets : TargetsDict)
    (paths : List String) : TargetsDict :=
  paths.foldl (fun t p =>
    match store.targetFile c p with
    | .ok (some tc) => assignTarget t c p tc
    | _ => t) targets

theorem foldAssign_cons (store : RevisionStore) (c : String) (targets : TargetsDict)
    (p : String) (rest : List String) :
    foldAssign store c targets (p :: rest) =
      foldAssign store c
        (match store.targetFile c p with
         | .ok (some tc) => assignTarget targets c p tc
         | _ => targets) rest := rfl

theorem processTargetPaths_cons (store : RevisionStore) (c p : String)
    (rest : List String) (targets : TargetsDict) (diags : List String) :
    processTargetPaths store c (p :: rest) targets diags =
      match store.targetFile c p with
      | .fatal e => .error e
      | .ok (some tc) => processTargetPaths store c rest (assignTarget targets c p tc) diags
      | .ok none => processTargetPaths store c rest targets diags
      | .unavailable =>
          processTargetPaths store c rest targets
            (diags ++ [s!"target file {p} not available at revision {c}"])
      | .malformed =>
          processTargetPaths store c rest targets
            (diags ++ [s!"target file {p} is not a valid json at revision {c}"]) := rfl

theorem targetCommitsLoop_cons (store : RevisionStore) (c : String)
    (rest : List String) (targets : TargetsDict) (diags : List String) :
    targetCommitsLoop store (c :: rest) targets diags =
      match store.targetsJson c with
      | .fatal e => .error e
      | .unavailable =>
          targetCommitsLoop store rest targets
            (diags ++ [s!"targets.json not available at revision {c}"])
      | .malformed =>
          targetCommitsLoop store rest targets
            (diags ++ [s!"targets.json is not a valid json at revision {c}"])
      | .ok paths =>
        match processTargetPaths store c paths targets diags with
        | .error e => .error e
        | .ok (targets', diags') => targetCommitsLoop store rest targets' diags' := rfl

/-- Under non-fatal descriptor fetches, the inner loop succeeds and its dict
effect is exactly the fold of the per-path assignments. -/
theorem processTargetPaths_ok (store : RevisionStore) (c : String) :
    ∀ (paths : List String) (targets : TargetsDict) (diags : List String),
      (∀ p ∈ paths, (store.targetFile c p).isFatal = false) →
      ∃ diags', processTargetPaths store c paths targets diags =
        .ok (foldAssign store c targets paths, diags') := by
  intro paths
  induction paths with
  | nil =>
    intro targets diags _
    exact ⟨diags, rfl⟩
  | cons p rest ih =>
    intro targets diags h
    have hp : (store.targetFile c p).isFatal = false := h p (List.mem_cons_self p rest)
    have hrest : ∀ q ∈ rest, (store.targetFile c q).isFatal = false :=
      fun q hq => h q (List.mem_cons_of_mem p hq)
    cases hf : store.targetFile c p with
    | fatal e =>
      rw [hf] at hp
      simp [Fetch.isFatal] at hp
    | ok a =>
      cases a with
      | some tc =>
        simp only [processTargetPaths_cons, foldAssign_cons, hf]
        exact ih (assignTarget targets c p tc) diags hrest
      | none =>
        simp only [processTargetPaths_cons, foldAssign_cons, hf]
        exact ih targets diags hrest
    | unavailable =>
      simp only [processTargetPaths_cons, foldAssign_cons, hf]
      exact ih targets (diags ++ [s!"target file {p} not available at revision {c}"]) hrest
    | malformed =>
      simp only [processTargetPaths_cons, foldAssign_cons, hf]
      exact ih targets (diags ++ [s!"target file {p} is not a valid json at revision {c}"]) hrest

/-- The inner loop only touches the entry of its own revision. -/
theorem foldAssign_get_other (store : RevisionStore) (c : String) :
    ∀ (paths : List String) (targets : TargetsDict) (c' : String), c' ≠ c →
      alGet (foldAssign store c targets paths) c' = alGet targets c' := by
  intro paths
  induction paths with
  | nil => intro targets c' _; rfl
  | cons p rest ih =>
    intro targets c' hne
    cases hf : store.targetFile c p with
    | ok a =>
      cases a with
      | some tc =>
        simp only [foldAssign_cons, hf]
        rw [ih (assignTarget targets c p tc) c' hne]
        exact alGet_alSet_ne targets c c' _ hne
      | none =>
        simp only [foldAssign_cons, hf]
        exact ih targets c' hne
    | unavailable =>
      simp only [foldAssign_cons, hf]
      exact ih targets c' hne
    | malformed =>
      simp only [foldAssign_cons, hf]
      exact ih targets c' hne
    | fatal e =>
      simp only [foldAssign_cons, hf]
      exact ih targets c' hne

/-- The inner loop's effect on its own revision's entry is the fold of the
kept (path, commit) pairs. -/
theorem foldAssign_get_self (store : RevisionStore) (c : String) :
    ∀ (paths : List String) (targets : TargetsDict),
      alGetD (foldAssign store c targets paths) c [] =
        (keptPairs store c paths).foldl (fun e pr => alSet e pr.1 pr.2)
          (alGetD targets c []) := by
  intro paths
  induction paths with
  | nil => intro targets; rfl
  | cons p rest ih =>
    intro targets
    cases hf : store.targetFile c p with
    | ok a =>
      cases a with
      | some tc =>
        simp only [foldAssign_cons, hf, keptPairs, List.filterMap_cons]
        rw [ih (assignTarget targets c p tc)]
        have hself : alGetD (assignTarget targets c p tc) c [] =
            alSet (alGetD targets c []) p tc := by
          simp [assignTarget, alGetD, alGet_alSet_self]
        rw [hself]
        rfl
      | none =>
        simp only [foldAssign_cons, hf, keptPairs, List.filterMap_cons]
        exact ih targets
    | unavailable =>
      simp only [foldAssign_cons, hf, keptPairs, List.filterMap_cons]
      exact ih targets
    | malformed =>
      simp only [foldAssign_cons, hf, keptPairs, List.filterMap_cons]
      exact ih targets
    | fatal e =>
      simp only [foldAssign_cons, hf, keptPairs, List.filterMap_cons]
      exact ih targets

theorem alGet_append_none {κ α : Type} [DecidableEq κ] :
    ∀ (d₁ d₂ : List (κ × α)) (k : κ), alGet d₁ k = none →
      alGet (d₁ ++ d₂) k = alGet d₂ k := by
  intro d₁
  induction d₁ with
  | nil => intro d₂ k _; rfl
  | cons e rest ih =>
    intro d₂ k h
    obtain ⟨k₀, v₀⟩ := e
    simp only [alGet, List.cons_append] at h ⊢
    split at h
    · cases h
    · rename_i hne
      rw [if_neg hne]
      exact ih d₂ k h

theorem alSet_fresh {κ α : Type} [DecidableEq κ] :
    ∀ (d : List (κ × α)) (k : κ) (v : α), alGet d k = none →
      alSet d k v = d ++ [(k, v)] := by
  intro d
  induction d with
  | nil => intro k v _; rfl
  | cons e rest ih =>
    intro k v h
    obtain ⟨k₀, v₀⟩ := e
    simp only [alGet] at h
    split at h
    · cases h
    · rename_i hne
      simp only [alSet, if_neg hne, List.cons_append]
      rw [ih k v h]

/-- Folding insertions of pairwise-distinct fresh keys appends them in order. -/
theorem foldl_alSet_fresh :
    ∀ (es : List (String × String)) (e : List (String × String)),
      (es.map Prod.fst).Nodup → (∀ pr ∈ es, alGet e pr.1 = none) →
      es.foldl (fun d pr => alSet d pr.1 pr.2) e = e ++ es := by
  intro es
  induction es with
  | nil => intro e _ _; simp
  | cons pr rest ih =>
    intro e hnd hfresh
    obtain ⟨k, v⟩ := pr
    simp only [List.map_cons, List.nodup_cons] at hnd
    obtain ⟨hknotin, hndr⟩ := hnd
    simp only [List.foldl_cons]
    rw [alSet_fresh e k v (hfresh (k, v) (List.mem_cons_self _ _))]
    rw [ih (e ++ [(k, v)]) hndr ?_]
    · simp
    · intro q hq
      rw [alGet_append_none e [(k, v)] q.1 (hfresh q (List.mem_cons_of_mem _ hq))]
      have hqk : ¬ k = q.1 := by
        intro he
        exact hknotin (he ▸ List.mem_map_of_mem Prod.fst hq)
      simp [alGet, hqk]

/-- The kept pairs' keys form a sublist of the declared paths. -/
theorem keptPairs_keys_sublist (store : RevisionStore) (c : String) :
    ∀ paths : List String,
      ((keptPairs store c paths).map Prod.fst).Sublist paths := by
  intro paths
  induction paths with
  | nil => simp [keptPairs]
  | cons p rest ih =>
    cases hf : store.targetFile c p with
    | ok a =>
      cases a with
      | some tc =>
        simp only [keptPairs, List.filterMap_cons, hf, List.map_cons]
        exact (ih : _).cons₂ p
      | none =>
        simp only [keptPairs, List.filterMap_cons, hf]
        exact ih.cons p
    | unavailable =>
      simp only [keptPairs, List.filterMap_cons, hf]
      exact ih.cons p
    | malformed =>
      simp only [keptPairs, List.filterMap_cons, hf]
      exact ih.cons p
    | fatal e =>
      simp only [keptPairs, List.filterMap_cons, hf]
      exact ih.cons p

/-- Main loop invariant for claim C2: under non-fatal fetches and distinct
revisions (with duplicate-free declared paths) the loop succeeds, leaves
unprocessed keys untouched, and gives every processed revision exactly its
specified entries. -/
theorem targetCommitsLoop_spec (store : RevisionStore) :
    ∀ (commits : List String) (targets : TargetsDict) (diags : List String),
      commits.Nodup →
      (∀ c ∈ commits, (store.targetsJson c).isFatal = false) →
      (∀ c ∈ commits, ∀ p, (store.targetFile c p).isFatal = false) →
      (∀ c ∈ commits, ∀ l, store.targetsJson c = .ok l → l.Nodup) →
      (∀ c ∈ commits, alGet targets c = none) →
      ∃ res diags', targetCommitsLoop store commits targets diags = .ok (res, diags')
        ∧ (∀ c', c' ∉ commits → alGet res c' = alGet targets c')
        ∧ (∀ c ∈ commits, alGetD res c [] = revisionEntriesSpec store c) := by
  intro commits
  induction commits with
  | nil =>
    intro targets diags _ _ _ _ _
    exact ⟨targets, diags, rfl, fun c' _ => rfl, fun c hc => absurd hc (List.not_mem_nil c)⟩
  | cons c rest ih =>
    intro targets diags hnd hroot hfile hpaths hacc
    have hmem : c ∈ c :: rest := List.mem_cons_self c rest
    have hcnotin : c ∉ rest := (List.nodup_cons.mp hnd).1
    have hndr : rest.Nodup := (List.nodup_cons.mp hnd).2
    have hrootr : ∀ c₀ ∈ rest, (store.targetsJson c₀).isFatal = false :=
      fun c₀ h₀ => hroot c₀ (List.mem_cons_of_mem c h₀)
    have hfiler : ∀ c₀ ∈ rest, ∀ p, (store.targetFile c₀ p).isFatal = false :=
      fun c₀ h₀ => hfile c₀ (List.mem_cons_of_mem c h₀)
    have hpathsr : ∀ c₀ ∈ rest, ∀ l, store.targetsJson c₀ = .ok l → l.Nodup :=
      fun c₀ h₀ => hpaths c₀ (List.mem_cons_of_mem c h₀)
    cases hj : store.targetsJson c with
    | fatal e =>
      have hcontra := hroot c hmem
      rw [hj] at hcontra
      simp [Fetch.isFatal] at hcontra
    | unavailable =>
      simp only [targetCommitsLoop_cons, hj]
      obtain ⟨res, diags', heq, hframe, hchar⟩ :=
        ih targets (diags ++ [s!"targets.json not available at revision {c}"])
          hndr hrootr hfiler hpathsr
          (fun c₀ h₀ => hacc c₀ (List.mem_cons_of_mem c h₀))
      refine ⟨res, diags', heq, ?_, ?_⟩
      · intro c' hc'
        exact hframe c' (fun h => hc' (List.mem_cons_of_mem c h))
      · intro c₀ hc₀
        rcases List.mem_cons.mp hc₀ with hceq | hcr
        · subst hceq
          rw [alGetD, hframe c₀ hcnotin, hacc c₀ hmem]
          simp [revisionEntriesSpec, hj]
        · exact hchar c₀ hcr
    | malformed =>
      simp only [targetCommitsLoop_cons, hj]
      obtain ⟨res, diags', heq, hframe, hchar⟩ :=
        ih targets (diags ++ [s!"targets.json is not a valid json at revision {c}"])
          hndr hrootr hfiler hpathsr
          (fun c₀ h₀ => hacc c₀ (List.mem_cons_of_mem c h₀))
      refine ⟨res, diags', heq, ?_, ?_⟩
      · intro c' hc'
        exact hframe c' (fun h => hc' (List.mem_cons_of_mem c h))
      · intro c₀ hc₀
        rcases List.mem_cons.mp hc₀ with hceq | hcr
        · subst hceq
          rw [alGetD, hframe c₀ hcnotin, hacc c₀ hmem]
          simp [revisionEntriesSpec, hj]
        · exact hchar c₀ hcr
    | ok paths =>
      obtain ⟨diags₁, hptp⟩ :=
        processTargetPaths_ok store c paths targets diags (fun p _ => hfile c hmem p)
      simp only [targetCommitsLoop_cons, hj, hptp]
      have hacc₁ : ∀ c₀ ∈ rest, alGet (foldAssign store c targets paths) c₀ = none := by
        intro c₀ h₀
        have hne : c₀ ≠ c := fun he => hcnotin (he ▸ h₀)
        rw [foldAssign_get_other store c paths targets c₀ hne]
        exact hacc c₀ (List.mem_cons_of_mem c h₀)
      obtain ⟨res, diags', heq, hframe, hchar⟩ :=
        ih (foldAssign store c targets paths) diags₁ hndr hrootr hfiler hpathsr hacc₁
      refine ⟨res, diags', heq, ?_, ?_⟩
      · intro c' hc'
        have hne : c' ≠ c := fun he => hc' (he ▸ hmem)
        rw [hframe c' (fun h => hc' (List.mem_cons_of_mem c h))]
        exact foldAssign_get_other store c paths targets c' hne
      · intro c₀ hc₀
        rcases List.mem_cons.mp hc₀ with hceq | hcr
        · subst hceq
          have h1 : alGetD res c₀ [] = alGetD (foldAssign store c₀ targets paths) c₀ [] := by
            rw [alGetD, alGetD, hframe c₀ hcnotin]
          have h3 : alGetD targets c₀ [] = [] := by
            rw [alGetD, hacc c₀ hmem]
            rfl
          have hknd : ((keptPairs store c₀ paths).map Prod.fst).Nodup :=
            (keptPairs_keys_sublist store c₀ paths).nodup (hpaths c₀ hmem paths hj)
          rw [h1, foldAssign_get_self store c₀ paths targets, h3,
            foldl_alSet_fresh (keptPairs store c₀ paths) [] hknd (fun pr _ => rfl)]
          simp [revisionEntriesSpec, keptPairs, hj]
        · exact hchar c₀ hcr

/-- C2: on any revision sequence with no fatal store errors, the walk never
raises — each revision whose root `targets.json` is unavailable or malformed
is suppressed alone (its entries are empty, every other revision still gets
exactly its own entries), and each failing target path is suppressed alone
(sibling paths of the same revision survive, as `revisionEntriesSpec` keeps
every path whose own fetch succeeded regardless of its siblings). -/
theorem taf_C2_failures_isolated (store : RevisionStore) (commits : List String)
    (h1 : commits.Nodup)
    (h2 : ∀ c ∈ commits, (store.targetsJson c).isFatal = false)
    (h3 : ∀ c ∈ commits, ∀ p, (store.targetFile c p).isFatal = false)
    (h4 : ∀ c ∈ commits, ∀ l, store.targetsJson c = .ok l → l.Nodup) :
    ∃ targets diags repos,
      target_commits_at_revisions store commits = .ok (targets, diags)
      ∧ sorted_commits_per_repositories store commits = .ok (repos, diags)
      ∧ ∀ c ∈ commits, alGetD targets c [] = revisionEntriesSpec store c := by
  obtain ⟨res, diags', heq, hframe, hchar⟩ :=
    targetCommitsLoop_spec store commits [] [] h1 h2 h3 h4 (fun c _ => rfl)
  have heq' : target_commits_at_revisions store commits = .ok (res, diags') := heq
  refine ⟨res, diags',
    commits.foldl (fun acc c => revisionAppend acc none (alGetD res c [])) [],
    heq', ?_, hchar⟩
  unfold sorted_commits_per_repositories
  rw [heq']

/-- Commits `r1 r2` where `r1`'s root metadata is unavailable and `r2`
declares `A` (valid, commit `"c1"`) and `B` (malformed descriptor). -/
def storeMixedFailures : RevisionStore :=
  { targetsJson := fun c => if c = "r2" then .ok ["A", "B"] else .unavailable,
    targetFile := fun c p =>
      if c = "r2" ∧ p = "A" then .ok (some "c1")
      else if c = "r2" ∧ p = "B" then .malformed
      else .unavailable }

/-- Witness for C2: the mixed-failure store over `["r1", "r2"]`. -/
theorem taf_C2_failures_isolated_witness :
    ∃ targets diags repos,
      target_commits_at_revisions storeMixedFailures ["r1", "r2"] = .ok (targets, diags)
      ∧ sorted_commits_per_repositories storeMixedFailures ["r1", "r2"] = .ok (repos, diags)
      ∧ ∀ c ∈ ["r1", "r2"], alGetD targets c [] = revisionEntriesSpec storeMixedFailures c :=
  taf_C2_failures_isolated storeMixedFailures ["r1", "r2"]
    (by decide)
    (by
      intro c _
      simp only [storeMixedFailures]
      split <;> rfl)
    (by
      intro c _ p
      simp only [storeMixedFailures]
      split
      · rfl
      · split <;> rfl)
    (by
      intro c _ l h
      simp only [storeMixedFailures] at h
      split at h
      · cases h
        decide
      · exact Fetch.noConfusion h)

/-! ### Trail walk: descriptors without a `commit` field (claim C5) -/

/-- `store` with target path `p` removed from every declared-paths list:
the walk on this store never visits `p` at all. -/
def erasePathStore (store : RevisionStore) (p : String) : RevisionStore :=
  { targetsJson := fun c =>
      match store.targetsJson c with
      | .ok paths => .ok (paths.filter (fun q => decide (q ≠ p)))
      | other => other,
    targetFile := store.targetFile }

/-- The inner loop only consults `targetFile`, which `erasePathStore` leaves
unchanged. -/
theorem processTargetPaths_erase (store : RevisionStore) (p : String) (c : String) :
    ∀ (paths : List String) (targets : TargetsDict) (diags : List String),
      processTargetPaths (erasePathStore store p) c paths targets diags =
        processTargetPaths store c paths targets diags := by
  intro paths
  induction paths with
  | nil => intro targets diags; rfl
  | cons q rest ih =>
    intro targets diags
    rw [processTargetPaths_cons, processTargetPaths_cons]
    have hsame : (erasePathStore store p).targetFile = store.targetFile := rfl
    rw [hsame]
    cases hf : store.targetFile c q with
    | ok a =>
      cases a with
      | some tc =>
        simp only [hf]
        exact ih _ _
      | none =>
        simp only [hf]
        exact ih _ _
    | unavailable =>
      simp only [hf]
      exact ih _ _
    | malformed =>
      simp only [hf]
      exact ih _ _
    | fatal e => simp only [hf]

/-- A path whose descriptor is `ok` without a `commit` field contributes
nothing to the inner loop: filtering it out of the declared paths changes
neither the dict nor the diagnostics nor the error behavior. -/
theorem processTargetPaths_filter (store : RevisionStore) (p c : String)
    (h : store.targetFile c p = .ok none) :
    ∀ (paths : List String) (targets : TargetsDict) (diags : List String),
      processTargetPaths store c paths targets diags =
        processTargetPaths store c (paths.filter (fun q => decide (q ≠ p))) targets diags := by
  intro paths
  induction paths with
  | nil => intro targets diags; rfl
  | cons q rest ih =>
    intro targets diags
    by_cases hq : q = p
    · subst hq
      have hfilter : (q :: rest).filter (fun x => decide (x ≠ q)) =
          rest.filter (fun x => decide (x ≠ q)) := by
        simp [List.filter_cons]
      rw [hfilter, processTargetPaths_cons]
      simp only [h]
      exact ih targets diags
    · have hfilter : (q :: rest).filter (fun x => decide (x ≠ p)) =
          q :: rest.filter (fun x => decide (x ≠ p)) := by
        simp [List.filter_cons, hq]
      rw [hfilter, processTargetPaths_cons, processTargetPaths_cons]
      cases hf : store.targetFile c q with
      | ok a =>
        cases a with
        | some tc =>
          simp only [hf]
          exact ih _ _
        | none =>
          simp only [hf]
          exact ih _ _
      | unavailable =>
        simp only [hf]
        exact ih _ _
      | malformed =>
        simp only [hf]
        exact ih _ _
      | fatal e => simp only [hf]

/-- When `p`'s descriptor lacks a `commit` field at every revision, the whole
walk — dict, diagnostics and error behavior — is identical to the walk on
the store with `p` never declared. -/
theorem targetCommitsLoop_erase (store : RevisionStore) (p : String)
    (h : ∀ c, store.targetFile c p = .ok none) :
    ∀ (commits : List String) (targets : TargetsDict) (diags : List String),
      targetCommitsLoop store commits targets diags =
        targetCommitsLoop (erasePathStore store p) commits targets diags := by
  intro commits
  induction commits with
  | nil => intro targets diags; rfl
  | cons c rest ih =>
    intro targets diags
    rw [targetCommitsLoop_cons, targetCommitsLoop_cons]
    cases hj : store.targetsJson c with
    | fatal e =>
      have hj' : (erasePathStore store p).targetsJson c = .fatal e := by
        simp [erasePathStore, hj]
      simp only [hj, hj']
    | unavailable =>
      have hj' : (erasePathStore store p).targetsJson c = .unavailable := by
        simp [erasePathStore, hj]
      simp only [hj, hj']
      exact ih _ _
    | malformed =>
      have hj' : (erasePathStore store p).targetsJson c = .malformed := by
        simp [erasePathStore, hj]
      simp only [hj, hj']
      exact ih _ _
    | ok paths =>
      have hj' : (erasePathStore store p).targetsJson c =
          .ok (paths.filter (fun q => decide (q ≠ p))) := by
        simp [erasePathStore, hj]
      simp only [hj, hj']
      rw [processTargetPaths_erase store p c, ← processTargetPaths_filter store p c (h c)]
      cases hptp : processTargetPaths store c paths targets diags with
      | error e => rfl
      | ok pr =>
        obtain ⟨targets', diags'⟩ := pr
        exact ih targets' diags'

/-- No inner dict of `targets` mentions target path `p`. -/
def NoPathEntry (p : String) (targets : TargetsDict) : Prop :=
  ∀ c', alGet (alGetD targets c' []) p = none

theorem assignTarget_no_path (p : String) (targets : TargetsDict) (c q tc : String)
    (hq : q ≠ p) (h : NoPathEntry p targets) :
    NoPathEntry p (assignTarget targets c q tc) := by
  intro c'
  unfold assignTarget
  by_cases hc : c' = c
  · subst hc
    rw [alGetD, alGet_alSet_self]
    simp only [Option.getD_some]
    rw [alGet_alSet_ne _ q p tc (fun he => hq he.symm)]
    exact h c'
  · rw [alGetD, alGet_alSet_ne _ c c' _ hc]
    exact h c'

/-- The inner loop introduces no entry for a path whose descriptor lacks a
`commit` field. -/
theorem processTargetPaths_no_path (store : RevisionStore) (p c : String)
    (h : store.targetFile c p = .ok none) :
    ∀ (paths : List String) (targets : TargetsDict) (diags : List String)
      (targets' : TargetsDict) (diags' : List String),
      processTargetPaths store c paths targets diags = .ok (targets', diags') →
      NoPathEntry p targets → NoPathEntry p targets' := by
  intro paths
  induction paths with
  | nil =>
    intro targets diags targets' diags' heq hn
    cases heq
    exact hn
  | cons q rest ih =>
    intro targets diags targets' diags' heq hn
    rw [processTargetPaths_cons] at heq
    cases hf : store.targetFile c q with
    | ok a =>
      cases a with
      | some tc =>
        have hq : q ≠ p := by
          intro he
          rw [he, h] at hf
          simp at hf
        rw [hf] at heq
        exact ih _ _ _ _ heq (assignTarget_no_path p targets c q tc hq hn)
      | none =>
        rw [hf] at heq
        exact ih _ _ _ _ heq hn
    | unavailable =>
      rw [hf] at heq
      exact ih _ _ _ _ heq hn
    | malformed =>
      rw [hf] at heq
      exact ih _ _ _ _ heq hn
    | fatal e =>
      rw [hf] at heq
      exact Except.noConfusion heq

/-- A successful walk introduces no entry for a path whose descriptor lacks
a `commit` field at every revision. -/
theorem targetCommitsLoop_no_path (store : RevisionStore) (p : String)
    (h : ∀ c, store.targetFile c p = .ok none) :
    ∀ (commits : List String) (targets : TargetsDict) (diags : List String)
      (res : TargetsDict) (diags' : List String),
      targetCommitsLoop store commits targets diags = .ok (res, diags') →
      NoPathEntry p targets → NoPathEntry p res := by
  intro commits
  induction commits with
  | nil =>
    intro targets diags res diags' heq hn
    cases heq
    exact hn
  | cons c rest ih =>
    intro targets diags res diags' heq hn
    rw [targetCommitsLoop_cons] at heq
    cases hj : store.targetsJson c with
    | fatal e =>
      rw [hj] at heq
      exact Except.noConfusion heq
    | unavailable =>
      rw [hj] at heq
      exact ih _ _ _ _ heq hn
    | malformed =>
      rw [hj] at heq
      exact ih _ _ _ _ heq hn
    | ok paths =>
      simp only [hj] at heq
      cases hptp : processTargetPaths store c paths targets diags with
      | error e =>
        simp only [hptp] at heq
        exact Except.noConfusion heq
      | ok pr =>
        obtain ⟨targets₁, diags₁⟩ := pr
        simp only [hptp] at heq
        exact ih _ _ _ _ heq
          (processTargetPaths_no_path store p c (h c) paths targets diags targets₁ diags₁
            hptp hn)

theorem alListAppend_get_ne (q p : String) (hq : q ≠ p) :
    ∀ (acc : List (String × List String)) (v : String),
      alGet (alListAppend acc q v) p = alGet acc p := by
  intro acc
  induction acc with
  | nil =>
    intro v
    simp only [alListAppend, alGet]
    rw [if_neg hq]
  | cons e rest ih =>
    intro v
    obtain ⟨k, vs⟩ := e
    by_cases hk : k = q
    · subst hk
      simp only [alListAppend, if_pos rfl, alGet]
      rw [if_neg hq, if_neg hq]
    · simp only [alListAppend, if_neg hk, alGet]
      split
      · rfl
      · exact ih v

/-- `revisionAppend` over entries that never mention `p` leaves `p`'s
timeline key untouched. -/
theorem revisionAppend_get_none (p : String) :
    ∀ (es : List (String × String)) (acc : List (String × List String))
      (prev : Option String), alGet es p = none →
      alGet (revisionAppend acc prev es) p = alGet acc p := by
  intro es
  induction es with
  | nil => intro acc prev _; rfl
  | cons e rest ih =>
    intro acc prev h
    obtain ⟨q, tc⟩ := e
    simp only [alGet] at h
    split at h
    · cases h
    · rename_i hq
      rw [revisionAppend]
      rw [ih _ _ h]
      split
      · exact alListAppend_get_ne q p (fun he => hq (he ▸ rfl)) acc tc
      · rfl

/-- C5: a target path whose descriptor lacks a `commit` field at every
revision is skipped silently — the walk (dict, diagnostics and error
behavior alike) equals the walk on the store that never declares the path,
so no diagnostic is attributable to it, and the path is absent from the
resulting timeline mapping. -/
theorem taf_C5_missing_commit_field_silent (store : RevisionStore) (p : String)
    (commits : List String) (h : ∀ c, store.targetFile c p = .ok none) :
    (target_commits_at_revisions store commits =
      target_commits_at_revisions (erasePathStore store p) commits)
    ∧ (sorted_commits_per_repositories store commits =
      sorted_commits_per_repositories (erasePathStore store p) commits)
    ∧ (∀ repos diags,
        sorted_commits_per_repositories store commits = .ok (repos, diags) →
        alGet repos p = none) := by
  have hw : target_commits_at_revisions store commits =
      target_commits_at_revisions (erasePathStore store p) commits :=
    targetCommitsLoop_erase store p h commits [] []
  refine ⟨hw, ?_, ?_⟩
  · unfold sorted_commits_per_repositories
    rw [hw]
  · intro repos diags hok
    unfold sorted_commits_per_repositories at hok
    cases heq : target_commits_at_revisions store commits with
    | error e =>
      rw [heq] at hok
      exact Except.noConfusion hok
    | ok pr =>
      obtain ⟨targets, diags₀⟩ := pr
      rw [heq] at hok
      simp only [Except.ok.injEq, Prod.mk.injEq] at hok
      obtain ⟨hrepos, -⟩ := hok
      have hnp : NoPathEntry p targets :=
        targetCommitsLoop_no_path store p h commits [] [] targets diags₀ heq
          (fun c' => rfl)
      rw [← hrepos]
      have : ∀ (cs : List String) (acc : List (String × List String)),
          alGet (cs.foldl (fun a c => revisionAppend a none (alGetD targets c [])) acc) p =
            alGet acc p := by
        intro cs
        induction cs with
        | nil => intro acc; rfl
        | cons c cs ih =>
          intro acc
          rw [List.foldl_cons, ih]
          exact revisionAppend_get_none p (alGetD targets c []) acc none (hnp c)
      exact this commits []

/-- Revision `r1` declares `A` (commit `"c1"`) and `B`, whose descriptor has
no `commit` field anywhere. -/
def storeNoCommitField : RevisionStore :=
  { targetsJson := fun c => if c = "r1" then .ok ["A", "B"] else .unavailable,
    targetFile := fun c q =>
      if q = "B" then .ok none
      else if c = "r1" ∧ q = "A" then .ok (some "c1")
      else .unavailable }

/-- Witness for C5 at the concrete store in which `B` never has a `commit`
field. -/
theorem taf_C5_missing_commit_field_silent_witness :
    (target_commits_at_revisions storeNoCommitField ["r1"] =
      target_commits_at_revisions (erasePathStore storeNoCommitField "B") ["r1"])
    ∧ (sorted_commits_per_repositories storeNoCommitField ["r1"] =
      sorted_commits_per_repositories (erasePathStore storeNoCommitField "B") ["r1"])
    ∧ (∀ repos diags,
        sorted_commits_per_repositories storeNoCommitField ["r1"] = .ok (repos, diags) →
        alGet repos "B" = none) :=
  taf_C5_missing_commit_field_silent storeNoCommitField "B" ["r1"]
    (by
      intro c
      simp [storeNoCommitField])
